import Mathlib

/-!
Shallow embedding of the FFNN feed-forward neural-network engine
(src/FFNN.hpp, src/FFNN.inl) and verification of its specification.

Modelling conventions:
* The scalar type `T` is the C++ template parameter; the development is
  generic over a commutative ring (value-initialisation `T()` is `0`).
* C++ iterators over contiguous storage are modelled as total functions
  `Nat → T` (the element at offset `k` from the cursor); containers that
  are mutated in place (`std::vector`) are modelled as `List T`, writes
  by `List.set`, reads by `List.getD` with default `0`.
* `Layer::compute` and `Layer::train` are translated with the same
  sequential cursor walk the source performs (`w_iter` advancing one
  element at a time), so the flat-index formulas of the spec are proved,
  not assumed.
-/

namespace FFNN

/-- `TransferFunction<T>`: record of `std::function`s (FFNN.hpp lines 10-15).
The `inverse` member can be an empty `std::function` (Heaviside), modelled
as `Option`. -/
structure TransferFunction (T : Type) where
  transfer : T → T
  derivative : T → T
  inverse : Option (T → T)

/-- `Heaviside::operator TransferFunction<T>` (FFNN.inl lines 14-21):
`transfer` is `x >= 0 ? 1 : 0`, `derivative` is the constant `1`,
`inverse` is the empty `std::function`. -/
def Heaviside (T : Type) [Zero T] [One T] [LinearOrder T] : TransferFunction T where
  transfer := fun x => if 0 ≤ x then 1 else 0
  derivative := fun _ => 1
  inverse := none

variable {T : Type} [CommRing T]

/-- `Layer<T>` (FFNN.hpp lines 32-75): sizes, transfer function and the flat
weight store `w`. -/
structure Layer (T : Type) where
  in_size : Nat
  out_size : Nat
  tf : TransferFunction T
  w : List T

instance : Inhabited (TransferFunction T) :=
  ⟨{ transfer := id, derivative := id, inverse := none }⟩

instance : Inhabited (Layer T) :=
  ⟨{ in_size := 0, out_size := 0, tf := default, w := [] }⟩

/-- `Layer::Layer` (FFNN.inl lines 32-38): the store is a
`Container((inputs+1)*outputs)`, value-initialised to zeros. -/
def Layer.make (inputs outputs : Nat) (tf : TransferFunction T) : Layer T where
  in_size := inputs
  out_size := outputs
  tf := tf
  w := List.replicate ((inputs + 1) * outputs) 0

/-- `Layer::weight(in, out)` (FFNN.inl lines 40-52): element at flat index
`out*(1+in_size)+in+1`. -/
def Layer.weightVal (L : Layer T) (i o : Nat) : T :=
  L.w.getD (o * (1 + L.in_size) + i + 1) 0

/-- `Layer::bias(out)` (FFNN.inl lines 68-80): element at flat index
`out*(1+in_size)`. -/
def Layer.biasVal (L : Layer T) (o : Nat) : T :=
  L.w.getD (o * (1 + L.in_size)) 0

/-- Inner loop of `Layer::compute` (FFNN.inl lines 91-92): starting with
accumulator `v`, weight cursor at `wpos` and input cursor at `ipos`, do
`k` times `v += (*in_iter++) * (*w_iter++)`. -/
def computeInner (w : List T) (input : Nat → T) : Nat → Nat → Nat → T → T
  | _, _, 0, v => v
  | wpos, ipos, k + 1, v =>
      computeInner w input (wpos + 1) (ipos + 1) k (v + input ipos * w.getD wpos 0)

/-- Outer loop of `Layer::compute` (FFNN.inl lines 88-94): for each of the
remaining `k` output units, read the bias at the cursor (`v = *w_iter++`),
run the inner loop over all `in_size` inputs, apply `transfer` and emit the
value; the weight cursor advances by `1 + in_size` per unit. -/
def computeGo (L : Layer T) (input : Nat → T) : Nat → Nat → List T
  | _, 0 => []
  | wpos, k + 1 =>
      L.tf.transfer (computeInner L.w input (wpos + 1) 0 L.in_size (L.w.getD wpos 0)) ::
        computeGo L input (wpos + 1 + L.in_size) k

/-- `Layer::compute` (FFNN.inl lines 82-95): the weight cursor starts at
`w.cbegin()`; the outer loop runs over all `out_size` output units. The
written output range is returned as a list. -/
def Layer.compute (L : Layer T) (input : Nat → T) : List T :=
  computeGo L input 0 L.out_size

/-- Inner loop of `Layer::train` (FFNN.inl lines 116-119): for each of the
remaining `k` inputs, first `*w_iter -= rate*delta*(*in_iter++)`, then
`*back_iter++ -= delta * (*w_iter++)` — the back accumulation reads the
weight **after** its update on the preceding line. -/
def trainInner (rate delta : T) (input : Nat → T) :
    Nat → Nat → Nat → List T → List T → List T × List T
  | _, _, 0, w, back => (w, back)
  | wpos, ipos, k + 1, w, back =>
      let w' := w.set wpos (w.getD wpos 0 - rate * delta * input ipos)
      let back' := back.set ipos (back.getD ipos 0 - delta * w'.getD wpos 0)
      trainInner rate delta input (wpos + 1) (ipos + 1) k w' back'

/-- Outer loop of `Layer::train` (FFNN.inl lines 110-120): for each of the
remaining `k` output units at output cursor `opos`,
`delta = derivative(*output) * (*output - *target++)`, then the bias update
`*w_iter++ -= rate*delta`, then the inner loop; `back_iter` and `in_iter`
are reset to the start each unit. -/
def trainOuter (rate : T) (tf : TransferFunction T) (input output target : Nat → T)
    (inSize : Nat) : Nat → Nat → Nat → List T → List T → List T × List T
  | _, _, 0, w, back => (w, back)
  | wpos, opos, k + 1, w, back =>
      let delta := tf.derivative (output opos) * (output opos - target opos)
      let w' := w.set wpos (w.getD wpos 0 - rate * delta)
      let wb := trainInner rate delta input (wpos + 1) 0 inSize w' back
      trainOuter rate tf input output target inSize (wpos + 1 + inSize) (opos + 1) k wb.1 wb.2

/-- `Layer::train` (FFNN.inl lines 97-121): seed `back` with the first
`in_size` input values (lines 108-109), then run the per-output-unit loop
with the weight cursor starting at `w.begin()`. Returns the updated layer
and the written back range. -/
def Layer.train (L : Layer T) (rate : T) (input output target : Nat → T) :
    Layer T × List T :=
  let seeded := (List.range L.in_size).map input
  let wb := trainOuter rate L.tf input output target L.in_size 0 0 L.out_size L.w seeded
  ({ L with w := wb.1 }, wb.2)

/-- `ComputeBuffer<T>` (FFNN.hpp lines 77-82): two growable containers. -/
structure ComputeBuffer (T : Type) where
  A : List T
  B : List T

instance : Inhabited (ComputeBuffer T) := ⟨⟨[], []⟩⟩

/-- `std::vector::resize` to at least `s` elements, value-initialising new
elements to `d`; used by `ComputeBuffer::beginA/beginB` (FFNN.inl lines
136-150) and `Network::train`'s `buffer.resize` (line 185). Never shrinks. -/
def growTo {α : Type} (d : α) (l : List α) (s : Nat) : List α :=
  if l.length < s then l ++ List.replicate (s - l.length) d else l

/-- `ComputeBuffer::beginA(s)` (FFNN.inl lines 136-142): grow `A` to at
least `s`; the returned iterator is `A.begin()`, so a subsequent write of
`n` values through it is `writePrefix`. -/
def ComputeBuffer.beginA (b : ComputeBuffer T) (s : Nat) : ComputeBuffer T :=
  { b with A := growTo 0 b.A s }

/-- `ComputeBuffer::beginB(s)` (FFNN.inl lines 144-150). -/
def ComputeBuffer.beginB (b : ComputeBuffer T) (s : Nat) : ComputeBuffer T :=
  { b with B := growTo 0 b.B s }

/-- Writing the values `vals` sequentially through an iterator at the start
of container `c`: positions `0..vals.length-1` are overwritten, the rest of
`c` is untouched. -/
def writePrefix {α : Type} (c : List α) (vals : List α) : List α :=
  vals ++ c.drop vals.length

/-- Reading through an iterator at the start of container `c`: the element
at offset `i`. -/
def readFn (c : List T) : Nat → T :=
  fun i => c.getD i 0

/-- `Network<T>` (FFNN.hpp lines 89-141): the owned layer sequence `l`. -/
structure Network (T : Type) where
  l : List (Layer T)

/-- `Network::Network` (FFNN.inl lines 123-134): each layer's input size is
the previous layer's output size, the first layer's input size is given. -/
def mkLayers (tf : TransferFunction T) : Nat → List Nat → List (Layer T)
  | _, [] => []
  | prev, s :: rest => Layer.make prev s tf :: mkLayers tf s rest

/-- `Network::Network` wrapper. -/
def Network.make (inputs : Nat) (nodes : List Nat) (tf : TransferFunction T) : Network T :=
  ⟨mkLayers tf inputs nodes⟩

/-- `TrainBuffer<T>` (FFNN.hpp lines 84-87): a growable sequence of
`ComputeBuffer`s. -/
abbrev TrainBuffer (T : Type) := List (ComputeBuffer T)

/-- The ping-pong loop of `Network::compute` (FFNN.inl lines 166-173):
`curA` records which of `A`/`B` was just written (`b_iter`).  Each
non-final layer reads that container and writes, through
`beginB`/`beginA`, into the other; the final layer writes into the
caller's output, returned as a list. -/
def computeGoNet : List (Layer T) → ComputeBuffer T → Bool → List T × ComputeBuffer T
  | [], buf, _ => ([], buf)
  | [L], buf, curA => (L.compute (readFn (if curA then buf.A else buf.B)), buf)
  | L :: L' :: rest, buf, curA =>
      let out := L.compute (readFn (if curA then buf.A else buf.B))
      let buf' :=
        if curA then
          let g := buf.beginB L.out_size
          { g with B := writePrefix g.B out }
        else
          let g := buf.beginA L.out_size
          { g with A := writePrefix g.A out }
      computeGoNet (L' :: rest) buf' (!curA)

/-- `Network::compute` with caller buffer (FFNN.inl lines 152-174), on the
layer list: a single layer computes straight into the output (lines
160-163); otherwise layer 0 computes through `beginA` into `A` (line 164)
and the ping-pong loop runs over the remaining layers. -/
def computeNet (input : Nat → T) (buffer : ComputeBuffer T) :
    List (Layer T) → List T × ComputeBuffer T
  | [] => ([], buffer)
  | [L] => (L.compute input, buffer)
  | L :: rest =>
      let g := buffer.beginA L.out_size
      computeGoNet rest { g with A := writePrefix g.A (L.compute input) } true

/-- `Network::compute` with caller buffer, on the `Network` wrapper. -/
def Network.computeBuf (net : Network T) (input : Nat → T) (buffer : ComputeBuffer T) :
    List T × ComputeBuffer T :=
  computeNet input buffer net.l

/-- `Network::compute` without caller buffer (FFNN.inl lines 219-226): a
default-constructed `ComputeBuffer` temporary (two empty containers). -/
def Network.compute (net : Network T) (input : Nat → T) : List T :=
  (net.computeBuf input ⟨[], []⟩).1

/-- Forward-pass loop of `Network::train` (FFNN.inl lines 188-191): layer
at index `k` computes from slot `k-1`'s `A` into slot `k`'s `A` (grown by
`beginA` to the layer's output count). -/
def forwardGo : List (Layer T) → Nat → TrainBuffer T → TrainBuffer T
  | [], _, buf => buf
  | L :: rest, k, buf =>
      let src := readFn (buf.getD (k - 1) default).A
      let slot := buf.getD k default
      let slot' := { slot with A := writePrefix (growTo 0 slot.A L.out_size) (L.compute src) }
      forwardGo rest (k + 1) (buf.set k slot')

/-- `Network::train` with caller buffer (FFNN.inl lines 176-217), on the
layer list.  The buffer is grown to the layer count (line 185), the forward
pass records every layer's output, then:
* a single layer is trained with the external input and target
  (lines 194-200);
* otherwise the last layer `n-1` is trained with slot `n-2`'s `A` as input,
  its own slot's `A` as output, the external target, and its own slot's `B`
  (grown by `beginB` to its input count) as back (lines 201-204);
* the backward while loop `while (--l_iter != l_iter)` (line 206) compares
  the decremented iterator with itself, which is always false, so its body
  never runs; the decrement in the condition still happens once, and the
  final call (lines 213-216) trains layer `n-2` with the **external**
  input, slot `n-2`'s `A` as output, slot `n-1`'s `B` as target and slot
  `n-2`'s `B` as back.  Layers `0..n-3` are left untouched. -/
def trainNet (rate : T) (input target : Nat → T) :
    List (Layer T) → TrainBuffer T → List (Layer T) × TrainBuffer T
  | [], buffer => ([], buffer)
  | L0 :: rest, buffer =>
      let n := rest.length + 1
      let buf0 := growTo (default : ComputeBuffer T) buffer n
      let slot0 := buf0.getD 0 default
      let buf1 := buf0.set 0
        { slot0 with A := writePrefix (growTo 0 slot0.A L0.out_size) (L0.compute input) }
      let buf2 := forwardGo rest 1 buf1
      match rest with
      | [] =>
          let s0 := buf2.getD 0 default
          let tb := L0.train rate input (readFn s0.A) target
          ([tb.1], buf2.set 0 { s0 with B := writePrefix (growTo 0 s0.B L0.in_size) tb.2 })
      | _ :: _ =>
          let layers := L0 :: rest
          let Llast := layers.getD (n - 1) default
          let prevA := (buf2.getD (n - 2) default).A
          let slast := buf2.getD (n - 1) default
          let tb := Llast.train rate (readFn prevA) (readFn slast.A) target
          let buf3 := buf2.set (n - 1)
            { slast with B := writePrefix (growTo 0 slast.B Llast.in_size) tb.2 }
          let Lp := layers.getD (n - 2) default
          let sp := buf3.getD (n - 2) default
          let nB := (buf3.getD (n - 1) default).B
          let tp := Lp.train rate input (readFn sp.A) (readFn nB)
          let buf4 := buf3.set (n - 2)
            { sp with B := writePrefix (growTo 0 sp.B Lp.in_size) tp.2 }
          ((layers.set (n - 1) tb.1).set (n - 2) tp.1, buf4)

/-- `Network::train` with caller buffer, on the `Network` wrapper. -/
def Network.trainBuf (net : Network T) (rate : T) (input target : Nat → T)
    (buffer : TrainBuffer T) : Network T × TrainBuffer T :=
  let r := trainNet rate input target net.l buffer
  (⟨r.1⟩, r.2)

/-- `Network::train` without caller buffer (FFNN.inl lines 228-235): a
default-constructed `TrainBuffer` temporary. -/
def Network.train (net : Network T) (rate : T) (input target : Nat → T) : Network T :=
  (net.trainBuf rate input target []).1

/-- The per-output-unit error term of `Layer::train` (FFNN.inl line 111):
`delta = derivative(*output) * (*output - *target)` at output unit `o`. -/
def deltaVal (tf : TransferFunction T) (output target : Nat → T) (o : Nat) : T :=
  tf.derivative (output o) * (output o - target o)

/-- Flat index addressed by `Layer::bias(out)` (FFNN.inl lines 68-80). -/
def biasIdx (I o : Nat) : Nat :=
  o * (1 + I)

/-- Flat index addressed by `Layer::weight(in, out)` (FFNN.inl lines 40-52). -/
def weightIdx (I i o : Nat) : Nat :=
  o * (1 + I) + i + 1

/-- The size-chaining discipline `Network::Network` establishes: each
layer's input count is at most the number of values available to it (the
constructor makes them exactly equal, FFNN.inl lines 129-133). -/
def Chained : Nat → List (Layer T) → Prop
  | _, [] => True
  | n, L :: rest => L.in_size ≤ n ∧ Chained L.out_size rest

/-- Modelled from the spec: sequentially composing each layer's
`Layer::compute` with an explicit intermediate buffer per step — the next
layer reads the full output list the previous layer just produced.  This
is the reference against which `Network::compute`'s ping-pong scheme is
compared. -/
def chainCompute : List (Layer T) → (Nat → T) → List T
  | [], _ => []
  | [L], input => L.compute input
  | L :: L' :: rest, input => chainCompute (L' :: rest) (readFn (L.compute input))

/-! ### `List.getD` helper lemmas -/

theorem getD_set_self {α : Type} (l : List α) (i : Nat) (a d : α) (h : i < l.length) :
    (l.set i a).getD i d = a := by
  simp [List.getD, List.get?_eq_getElem?, List.getElem?_set_self, h]

theorem getD_set_ne {α : Type} (l : List α) (i j : Nat) (a d : α) (h : i ≠ j) :
    (l.set i a).getD j d = l.getD j d := by
  simp [List.getD, List.get?_eq_getElem?, List.getElem?_set_ne h]

theorem getD_range_map {α : Type} (n i : Nat) (f : Nat → α) (d : α) (h : i < n) :
    ((List.range n).map f).getD i d = f i := by
  have hlen : i < ((List.range n).map f).length := by simpa using h
  rw [List.getD_eq_getElem _ _ hlen]
  simp

theorem writePrefix_getD {α : Type} (c vals : List α) (i : Nat) (d : α)
    (h : i < vals.length) :
    (writePrefix c vals).getD i d = vals.getD i d :=
  List.getD_append _ _ _ _ h

theorem writePrefix_length {α : Type} (c vals : List α) (h : vals.length ≤ c.length) :
    (writePrefix c vals).length = c.length := by
  simp [writePrefix]
  omega

theorem growTo_length {α : Type} (d : α) (l : List α) (s : Nat) :
    (growTo d l s).length = max l.length s := by
  unfold growTo
  split <;> simp <;> omega

/-! ### `Layer::compute` lemmas -/

theorem computeInner_eq (w : List T) (input : Nat → T) :
    ∀ (k wpos ipos : Nat) (v : T),
      computeInner w input wpos ipos k v =
        v + ∑ j in Finset.range k, input (ipos + j) * w.getD (wpos + j) 0 := by
  intro k
  induction k with
  | zero => intro wpos ipos v; simp [computeInner]
  | succ k ih =>
    intro wpos ipos v
    rw [computeInner, ih]
    rw [Finset.sum_range_succ' (fun j => input (ipos + j) * w.getD (wpos + j) 0) k]
    have hrw : (∑ j in Finset.range k, input (ipos + 1 + j) * w.getD (wpos + 1 + j) 0) =
        ∑ j in Finset.range k, input (ipos + (j + 1)) * w.getD (wpos + (j + 1)) 0 := by
      refine Finset.sum_congr rfl fun j _ => ?_
      have h1 : ipos + 1 + j = ipos + (j + 1) := by omega
      have h2 : wpos + 1 + j = wpos + (j + 1) := by omega
      rw [h1, h2]
    rw [hrw]
    simp only [Nat.add_zero]
    ring

theorem computeGo_length (L : Layer T) (input : Nat → T) :
    ∀ (k wpos : Nat), (computeGo L input wpos k).length = k := by
  intro k
  induction k with
  | zero => intro wpos; simp [computeGo]
  | succ k ih => intro wpos; simp [computeGo, ih]

theorem compute_length (L : Layer T) (input : Nat → T) :
    (L.compute input).length = L.out_size :=
  computeGo_length L input L.out_size 0

theorem computeGo_getD (L : Layer T) (input : Nat → T) :
    ∀ (k j wpos : Nat), j < k →
      (computeGo L input wpos k).getD j 0 =
        L.tf.transfer (L.w.getD (wpos + j * (1 + L.in_size)) 0 +
          ∑ i in Finset.range L.in_size,
            input i * L.w.getD (wpos + j * (1 + L.in_size) + i + 1) 0) := by
  intro k
  induction k with
  | zero => intro j wpos hj; omega
  | succ k ih =>
    intro j wpos hj
    cases j with
    | zero =>
      rw [computeGo]
      simp only [List.getD_cons_zero, Nat.zero_mul, Nat.add_zero]
      rw [computeInner_eq]
      have hs : (∑ i in Finset.range L.in_size, input (0 + i) * L.w.getD (wpos + 1 + i) 0) =
          ∑ i in Finset.range L.in_size, input i * L.w.getD (wpos + i + 1) 0 := by
        refine Finset.sum_congr rfl fun i _ => ?_
        have h1 : (0 : Nat) + i = i := by omega
        have h2 : wpos + 1 + i = wpos + i + 1 := by omega
        rw [h1, h2]
      rw [hs]
    | succ j =>
      rw [computeGo]
      simp only [List.getD_cons_succ]
      rw [ih j (wpos + 1 + L.in_size) (by omega)]
      have h1 : wpos + 1 + L.in_size + j * (1 + L.in_size) =
          wpos + (j + 1) * (1 + L.in_size) := by ring
      rw [h1]

theorem compute_getD (L : Layer T) (input : Nat → T) (o : Nat) (ho : o < L.out_size) :
    (L.compute input).getD o 0 =
      L.tf.transfer (L.biasVal o +
        ∑ i in Finset.range L.in_size, input i * L.weightVal i o) := by
  unfold Layer.compute
  rw [computeGo_getD L input L.out_size o 0 ho]
  simp [Layer.biasVal, Layer.weightVal]

theorem computeInner_congr (w : List T) (f g : Nat → T) :
    ∀ (k wpos ipos : Nat) (v : T), (∀ t, ipos ≤ t → t < ipos + k → f t = g t) →
      computeInner w f wpos ipos k v = computeInner w g wpos ipos k v := by
  intro k
  induction k with
  | zero => intro wpos ipos v _; simp [computeInner]
  | succ k ih =>
    intro wpos ipos v h
    rw [computeInner, computeInner, h ipos (le_refl _) (by omega)]
    exact ih (wpos + 1) (ipos + 1) _ fun t ht1 ht2 => h t (by omega) (by omega)

theorem computeGo_congr (L : Layer T) (f g : Nat → T)
    (h : ∀ i, i < L.in_size → f i = g i) :
    ∀ (k wpos : Nat), computeGo L f wpos k = computeGo L g wpos k := by
  intro k
  induction k with
  | zero => intro wpos; simp [computeGo]
  | succ k ih =>
    intro wpos
    rw [computeGo, computeGo, ih]
    congr 2
    exact computeInner_congr L.w f g L.in_size (wpos + 1) 0 _
      fun t _ ht2 => h t (by omega)

theorem compute_congr (L : Layer T) (f g : Nat → T)
    (h : ∀ i, i < L.in_size → f i = g i) :
    L.compute f = L.compute g :=
  computeGo_congr L f g h L.out_size 0

/-! ### `Layer::train` inner-loop lemmas -/

theorem trainInner_length (rate delta : T) (input : Nat → T) :
    ∀ (k wpos ipos : Nat) (w back : List T),
      (trainInner rate delta input wpos ipos k w back).1.length = w.length ∧
      (trainInner rate delta input wpos ipos k w back).2.length = back.length := by
  intro k
  induction k with
  | zero => intro wpos ipos w back; simp [trainInner]
  | succ k ih =>
    intro wpos ipos w back
    rw [trainInner]
    refine ⟨?_, ?_⟩ <;> simp [(ih (wpos + 1) (ipos + 1) _ _).1, (ih (wpos + 1) (ipos + 1) _ _).2]

theorem trainInner_w_frame (rate delta : T) (input : Nat → T) :
    ∀ (k wpos ipos : Nat) (w back : List T) (p : Nat) (d : T),
      (p < wpos ∨ wpos + k ≤ p) →
      (trainInner rate delta input wpos ipos k w back).1.getD p d = w.getD p d := by
  intro k
  induction k with
  | zero => intro wpos ipos w back p d _; simp [trainInner]
  | succ k ih =>
    intro wpos ipos w back p d hp
    rw [trainInner]
    rw [ih (wpos + 1) (ipos + 1) _ _ p d (by omega)]
    exact getD_set_ne _ _ _ _ _ (by omega)

theorem trainInner_b_frame (rate delta : T) (input : Nat → T) :
    ∀ (k wpos ipos : Nat) (w back : List T) (q : Nat) (d : T),
      (q < ipos ∨ ipos + k ≤ q) →
      (trainInner rate delta input wpos ipos k w back).2.getD q d = back.getD q d := by
  intro k
  induction k with
  | zero => intro wpos ipos w back q d _; simp [trainInner]
  | succ k ih =>
    intro wpos ipos w back q d hq
    rw [trainInner]
    rw [ih (wpos + 1) (ipos + 1) _ _ q d (by omega)]
    exact getD_set_ne _ _ _ _ _ (by omega)

theorem trainInner_w_val (rate delta : T) (input : Nat → T) :
    ∀ (k wpos ipos : Nat) (w back : List T) (p : Nat),
      wpos ≤ p → p < wpos + k → p < w.length →
      (trainInner rate delta input wpos ipos k w back).1.getD p 0 =
        w.getD p 0 - rate * delta * input (ipos + (p - wpos)) := by
  intro k
  induction k with
  | zero => intro wpos ipos w back p h1 h2 _; omega
  | succ k ih =>
    intro wpos ipos w back p h1 h2 hlen
    rw [trainInner]
    rcases Nat.eq_or_lt_of_le h1 with heq | hlt
    · subst heq
      rw [trainInner_w_frame rate delta input k (wpos + 1) (ipos + 1) _ _ wpos 0
          (Or.inl (by omega))]
      rw [getD_set_self _ _ _ _ hlen]
      simp
    · rw [ih (wpos + 1) (ipos + 1) _ _ p (by omega) (by omega) (by simpa using hlen)]
      rw [getD_set_ne _ _ _ _ _ (by omega)]
      have h3 : ipos + 1 + (p - (wpos + 1)) = ipos + (p - wpos) := by omega
      rw [h3]

theorem trainInner_b_val (rate delta : T) (input : Nat → T) :
    ∀ (k wpos ipos : Nat) (w back : List T) (q : Nat),
      ipos ≤ q → q < ipos + k → q < back.length → wpos + (q - ipos) < w.length →
      (trainInner rate delta input wpos ipos k w back).2.getD q 0 =
        back.getD q 0 -
          delta * (w.getD (wpos + (q - ipos)) 0 - rate * delta * input q) := by
  intro k
  induction k with
  | zero => intro wpos ipos w back q h1 h2 _ _; omega
  | succ k ih =>
    intro wpos ipos w back q h1 h2 hb hw
    rw [trainInner]
    rcases Nat.eq_or_lt_of_le h1 with heq | hlt
    · subst heq
      rw [trainInner_b_frame rate delta input k (wpos + 1) (ipos + 1) _ _ ipos 0
          (Or.inl (by omega))]
      rw [getD_set_self _ _ _ _ hb]
      rw [getD_set_self _ _ _ _ (by simpa using hw)]
      simp
    · have hlen' : ((w.set wpos (w.getD wpos 0 - rate * delta * input ipos)).length) =
          w.length := by simp
      rw [ih (wpos + 1) (ipos + 1) _ _ q (by omega) (by omega) (by simpa using hb)
          (by rw [hlen']; omega)]
      rw [getD_set_ne _ _ _ _ _ (by omega)]
      rw [getD_set_ne _ _ _ _ _ (by omega)]
      have h3 : wpos + 1 + (q - (ipos + 1)) = wpos + (q - ipos) := by omega
      rw [h3]

/-! ### `Layer::train` outer-loop lemmas -/

theorem trainOuter_length (rate : T) (tf : TransferFunction T)
    (input output target : Nat → T) (I : Nat) :
    ∀ (k wpos opos : Nat) (w back : List T),
      (trainOuter rate tf input output target I wpos opos k w back).1.length = w.length ∧
      (trainOuter rate tf input output target I wpos opos k w back).2.length = back.length := by
  intro k
  induction k with
  | zero => intro wpos opos w back; simp [trainOuter]
  | succ k ih =>
    intro wpos opos w back
    simp only [trainOuter]
    constructor
    · rw [(ih _ _ _ _).1, (trainInner_length _ _ _ _ _ _ _ _).1]
      simp
    · rw [(ih _ _ _ _).2, (trainInner_length _ _ _ _ _ _ _ _).2]

theorem trainOuter_w_frame (rate : T) (tf : TransferFunction T)
    (input output target : Nat → T) (I : Nat) :
    ∀ (k wpos opos : Nat) (w back : List T) (p : Nat) (d : T), p < wpos →
      (trainOuter rate tf input output target I wpos opos k w back).1.getD p d =
        w.getD p d := by
  intro k
  induction k with
  | zero => intro wpos opos w back p d _; simp [trainOuter]
  | succ k ih =>
    intro wpos opos w back p d hp
    simp only [trainOuter]
    rw [ih _ _ _ _ p d (by omega)]
    rw [trainInner_w_frame _ _ _ _ _ _ _ _ p d (Or.inl (by omega))]
    exact getD_set_ne _ _ _ _ _ (by omega)

theorem trainOuter_w_bias (rate : T) (tf : TransferFunction T)
    (input output target : Nat → T) (I : Nat) :
    ∀ (k wpos opos : Nat) (w back : List T) (u : Nat), u < k →
      wpos + u * (1 + I) < w.length →
      (trainOuter rate tf input output target I wpos opos k w back).1.getD
          (wpos + u * (1 + I)) 0 =
        w.getD (wpos + u * (1 + I)) 0 - rate * deltaVal tf output target (opos + u) := by
  intro k
  induction k with
  | zero => intro wpos opos w back u hu _; omega
  | succ k ih =>
    intro wpos opos w back u hu hlen
    simp only [trainOuter]
    cases u with
    | zero =>
      simp only [Nat.zero_mul, Nat.add_zero]
      have hlen' : wpos < w.length := by simpa using hlen
      rw [trainOuter_w_frame rate tf input output target I k _ _ _ _ wpos 0 (by omega)]
      rw [trainInner_w_frame _ _ _ _ _ _ _ _ wpos 0 (Or.inl (by omega))]
      rw [getD_set_self _ _ _ _ hlen']
      simp [deltaVal]
    | succ u =>
      have h1 : wpos + (u + 1) * (1 + I) = wpos + 1 + I + u * (1 + I) := by ring
      rw [h1]
      have hlen2 : wpos + 1 + I + u * (1 + I) <
          (trainInner rate (tf.derivative (output opos) * (output opos - target opos))
            input (wpos + 1) 0 I
            (w.set wpos (w.getD wpos 0 -
              rate * (tf.derivative (output opos) * (output opos - target opos)))) back).1.length := by
        rw [(trainInner_length _ _ _ _ _ _ _ _).1]
        simp only [List.length_set]
        omega
      rw [ih (wpos + 1 + I) (opos + 1) _ _ u (by omega) hlen2]
      have h2 : opos + 1 + u = opos + (u + 1) := by omega
      rw [h2]
      set M := u * (1 + I) with hM
      rw [trainInner_w_frame _ _ _ _ _ _ _ _ _ 0 (Or.inr (by omega))]
      rw [getD_set_ne _ _ _ _ _ (by omega)]

theorem trainOuter_w_weight (rate : T) (tf : TransferFunction T)
    (input output target : Nat → T) (I : Nat) :
    ∀ (k wpos opos : Nat) (w back : List T) (u i : Nat), u < k → i < I →
      wpos + u * (1 + I) + i + 1 < w.length →
      (trainOuter rate tf input output target I wpos opos k w back).1.getD
          (wpos + u * (1 + I) + i + 1) 0 =
        w.getD (wpos + u * (1 + I) + i + 1) 0 -
          rate * deltaVal tf output target (opos + u) * input i := by
  intro k
  induction k with
  | zero => intro wpos opos w back u i hu _ _; omega
  | succ k ih =>
    intro wpos opos w back u i hu hi hlen
    simp only [trainOuter]
    cases u with
    | zero =>
      simp only [Nat.zero_mul, Nat.add_zero]
      have hlen' : wpos + i + 1 < w.length := by simpa using hlen
      rw [trainOuter_w_frame rate tf input output target I k _ _ _ _ _ 0 (by omega)]
      rw [trainInner_w_val _ _ _ _ _ _ _ _ _ (by omega) (by omega)
          (by simp only [List.length_set]; omega)]
      rw [getD_set_ne _ _ _ _ _ (by omega)]
      have h2 : (0 : Nat) + (wpos + i + 1 - (wpos + 1)) = i := by omega
      rw [h2]
      simp [deltaVal, mul_assoc]
    | succ u =>
      have h1 : wpos + (u + 1) * (1 + I) + i + 1 = wpos + 1 + I + u * (1 + I) + i + 1 := by
        ring
      rw [h1]
      have hlen2 : wpos + 1 + I + u * (1 + I) + i + 1 <
          (trainInner rate (tf.derivative (output opos) * (output opos - target opos))
            input (wpos + 1) 0 I
            (w.set wpos (w.getD wpos 0 -
              rate * (tf.derivative (output opos) * (output opos - target opos)))) back).1.length := by
        rw [(trainInner_length _ _ _ _ _ _ _ _).1]
        simp only [List.length_set]
        omega
      rw [ih (wpos + 1 + I) (opos + 1) _ _ u i (by omega) hi hlen2]
      have h2 : opos + 1 + u = opos + (u + 1) := by omega
      rw [h2]
      set M := u * (1 + I) with hM
      rw [trainInner_w_frame _ _ _ _ _ _ _ _ _ 0 (Or.inr (by omega))]
      rw [getD_set_ne _ _ _ _ _ (by omega)]

theorem trainOuter_b_val (rate : T) (tf : TransferFunction T)
    (input output target : Nat → T) (I : Nat) :
    ∀ (k wpos opos : Nat) (w back : List T) (q : Nat), q < I → q < back.length →
      (∀ u, u < k → wpos + u * (1 + I) + q + 1 < w.length) →
      (trainOuter rate tf input output target I wpos opos k w back).2.getD q 0 =
        back.getD q 0 - ∑ u in Finset.range k,
          deltaVal tf output target (opos + u) *
            (w.getD (wpos + u * (1 + I) + q + 1) 0 -
              rate * deltaVal tf output target (opos + u) * input q) := by
  intro k
  induction k with
  | zero => intro wpos opos w back q _ _ _; simp [trainOuter]
  | succ k ih =>
    intro wpos opos w back q hq hb hws
    simp only [trainOuter]
    set δ := tf.derivative (output opos) * (output opos - target opos) with hδ
    set w' := w.set wpos (w.getD wpos 0 - rate * δ) with hw'
    set wb := trainInner rate δ input (wpos + 1) 0 I w' back with hwb
    have hwl : wb.1.length = w.length := by
      rw [hwb, (trainInner_length _ _ _ _ _ _ _ _).1, hw']
      simp
    have hbl : wb.2.length = back.length := by
      rw [hwb, (trainInner_length _ _ _ _ _ _ _ _).2]
    have hbounds : ∀ u, u < k → wpos + 1 + I + u * (1 + I) + q + 1 < wb.1.length := by
      intro u hu
      rw [hwl]
      have h := hws (u + 1) (by omega)
      have he : (u + 1) * (1 + I) = u * (1 + I) + (1 + I) := by ring
      rw [he] at h
      omega
    rw [ih (wpos + 1 + I) (opos + 1) wb.1 wb.2 q hq (by rw [hbl]; exact hb) hbounds]
    have hl : wpos + 1 + (q - 0) < w'.length := by
      rw [hw']
      simp only [List.length_set]
      have h := hws 0 (by omega)
      omega
    have hq0 : wb.2.getD q 0 =
        back.getD q 0 - δ * (w.getD (wpos + 0 * (1 + I) + q + 1) 0 - rate * δ * input q) := by
      rw [hwb, trainInner_b_val rate δ input I (wpos + 1) 0 w' back q (by omega) (by omega)
          hb hl]
      have hidx : wpos + 1 + (q - 0) = wpos + 0 * (1 + I) + q + 1 := by omega
      rw [hw', getD_set_ne _ _ _ _ _ (by omega), hidx]
    have hsum : (∑ u in Finset.range k,
        deltaVal tf output target (opos + 1 + u) *
          (wb.1.getD (wpos + 1 + I + u * (1 + I) + q + 1) 0 -
            rate * deltaVal tf output target (opos + 1 + u) * input q)) =
        ∑ u in Finset.range k,
          deltaVal tf output target (opos + (u + 1)) *
            (w.getD (wpos + (u + 1) * (1 + I) + q + 1) 0 -
              rate * deltaVal tf output target (opos + (u + 1)) * input q) := by
      refine Finset.sum_congr rfl fun u _ => ?_
      have h2 : opos + 1 + u = opos + (u + 1) := by omega
      have h4 : wb.1.getD (wpos + 1 + I + u * (1 + I) + q + 1) 0 =
          w.getD (wpos + 1 + I + u * (1 + I) + q + 1) 0 := by
        rw [hwb]
        set M := u * (1 + I) with hM
        rw [trainInner_w_frame _ _ _ _ _ _ _ _ _ 0 (Or.inr (by omega))]
        rw [hw', getD_set_ne _ _ _ _ _ (by omega)]
      have h3 : wpos + 1 + I + u * (1 + I) + q + 1 = wpos + (u + 1) * (1 + I) + q + 1 := by
        ring
      rw [h4, h2, h3]
    rw [hq0, hsum]
    rw [Finset.sum_range_succ' (fun u =>
      deltaVal tf output target (opos + u) *
        (w.getD (wpos + u * (1 + I) + q + 1) 0 -
          rate * deltaVal tf output target (opos + u) * input q)) k]
    simp only [Nat.add_zero, deltaVal]
    ring

/-! ### `Layer::train` closed forms -/

theorem idx_lt_of_lt (I O i o : Nat) (hi : i ≤ I) (ho : o < O) :
    o * (1 + I) + i < (1 + I) * O := by
  calc o * (1 + I) + i < o * (1 + I) + (1 + I) := Nat.add_lt_add_left (by omega) _
    _ = (o + 1) * (1 + I) := by ring
    _ ≤ O * (1 + I) := Nat.mul_le_mul_right _ (by omega)
    _ = (1 + I) * O := by ring

theorem train_w_length (L : Layer T) (rate : T) (input output target : Nat → T) :
    ((L.train rate input output target).1).w.length = L.w.length := by
  simp only [Layer.train]
  exact (trainOuter_length _ _ _ _ _ _ _ _ _ _ _).1

theorem train_back_length (L : Layer T) (rate : T) (input output target : Nat → T) :
    ((L.train rate input output target).2).length = L.in_size := by
  simp only [Layer.train]
  rw [(trainOuter_length _ _ _ _ _ _ _ _ _ _ _).2]
  simp

theorem train_in_size (L : Layer T) (rate : T) (input output target : Nat → T) :
    ((L.train rate input output target).1).in_size = L.in_size :=
  rfl

theorem train_out_size (L : Layer T) (rate : T) (input output target : Nat → T) :
    ((L.train rate input output target).1).out_size = L.out_size :=
  rfl

theorem train_bias (L : Layer T) (rate : T) (input output target : Nat → T)
    (hw : L.w.length = (1 + L.in_size) * L.out_size) (o : Nat) (ho : o < L.out_size) :
    ((L.train rate input output target).1).biasVal o =
      L.biasVal o - rate * deltaVal L.tf output target o := by
  have hlen : 0 + o * (1 + L.in_size) < L.w.length := by
    rw [hw]
    have h := idx_lt_of_lt L.in_size L.out_size 0 o (by omega) ho
    omega
  have h := trainOuter_w_bias rate L.tf input output target L.in_size L.out_size 0 0
    L.w ((List.range L.in_size).map input) o ho hlen
  simp only [Nat.zero_add] at h
  simpa [Layer.train, Layer.biasVal] using h

theorem train_weight (L : Layer T) (rate : T) (input output target : Nat → T)
    (hw : L.w.length = (1 + L.in_size) * L.out_size) (o i : Nat)
    (ho : o < L.out_size) (hi : i < L.in_size) :
    ((L.train rate input output target).1).weightVal i o =
      L.weightVal i o - rate * deltaVal L.tf output target o * input i := by
  have hlen : 0 + o * (1 + L.in_size) + i + 1 < L.w.length := by
    rw [hw]
    have h := idx_lt_of_lt L.in_size L.out_size (i + 1) o (by omega) ho
    omega
  have h := trainOuter_w_weight rate L.tf input output target L.in_size L.out_size 0 0
    L.w ((List.range L.in_size).map input) o i ho hi hlen
  simp only [Nat.zero_add] at h
  simpa [Layer.train, Layer.weightVal] using h

theorem train_back (L : Layer T) (rate : T) (input output target : Nat → T)
    (hw : L.w.length = (1 + L.in_size) * L.out_size) (i : Nat) (hi : i < L.in_size) :
    ((L.train rate input output target).2).getD i 0 =
      input i - ∑ o in Finset.range L.out_size,
        deltaVal L.tf output target o *
          (L.weightVal i o - rate * deltaVal L.tf output target o * input i) := by
  have hiq : i < ((List.range L.in_size).map input).length := by simpa using hi
  have hbounds : ∀ u, u < L.out_size → 0 + u * (1 + L.in_size) + i + 1 < L.w.length := by
    intro u hu
    rw [hw]
    have h := idx_lt_of_lt L.in_size L.out_size (i + 1) u (by omega) hu
    omega
  have h := trainOuter_b_val rate L.tf input output target L.in_size L.out_size 0 0
    L.w ((List.range L.in_size).map input) i hi hiq hbounds
  simp only [Nat.zero_add] at h
  rw [getD_range_map L.in_size i input 0 hi] at h
  simpa [Layer.train, Layer.weightVal] using h

theorem trainOuter_congr_output (rate : T) (tf : TransferFunction T)
    (input f g target : Nat → T) (I : Nat) :
    ∀ (k wpos opos : Nat) (w back : List T),
      (∀ t, opos ≤ t → t < opos + k → f t = g t) →
      trainOuter rate tf input f target I wpos opos k w back =
        trainOuter rate tf input g target I wpos opos k w back := by
  intro k
  induction k with
  | zero => intro wpos opos w back _; simp [trainOuter]
  | succ k ih =>
    intro wpos opos w back h
    simp only [trainOuter]
    rw [h opos (le_refl _) (by omega)]
    exact ih _ _ _ _ fun t h1 h2 => h t (by omega) (by omega)

theorem train_congr_output (L : Layer T) (rate : T) (input f g target : Nat → T)
    (h : ∀ o, o < L.out_size → f o = g o) :
    L.train rate input f target = L.train rate input g target := by
  simp only [Layer.train]
  rw [trainOuter_congr_output rate L.tf input f g target L.in_size L.out_size 0 0 _ _
    fun t _ h2 => h t (by omega)]

/-! ### `Network::compute` chaining lemmas -/

theorem mkLayers_chained (tf : TransferFunction T) :
    ∀ (nodes : List Nat) (prev : Nat), Chained prev (mkLayers tf prev nodes) := by
  intro nodes
  induction nodes with
  | nil => intro prev; simp [mkLayers, Chained]
  | cons s rest ih => intro prev; exact ⟨le_refl prev, ih s⟩

theorem computeGoNet_spec :
    ∀ (layers : List (Layer T)) (buf : ComputeBuffer T) (curA : Bool) (vals : List T),
      Chained vals.length layers →
      (∀ i, i < vals.length → (if curA then buf.A else buf.B).getD i 0 = vals.getD i 0) →
      layers ≠ [] →
      (computeGoNet layers buf curA).1 = chainCompute layers (readFn vals) := by
  intro layers
  induction layers with
  | nil => intro buf curA vals _ _ hne; exact absurd rfl hne
  | cons L rest ih =>
    intro buf curA vals hc hagree _
    obtain ⟨hin, hch⟩ := hc
    cases rest with
    | nil =>
      simp only [computeGoNet, chainCompute]
      exact compute_congr L _ _ fun i hi => hagree i (by omega)
    | cons L' rest' =>
      simp only [computeGoNet, chainCompute]
      have hout : L.compute (readFn (if curA then buf.A else buf.B)) =
          L.compute (readFn vals) :=
        compute_congr L _ _ fun i hi => hagree i (by omega)
      rw [hout]
      refine ih _ (!curA) (L.compute (readFn vals)) ?_ ?_ (by simp)
      · rw [compute_length]
        exact hch
      · intro i hi
        cases curA with
        | true => exact writePrefix_getD _ _ i 0 hi
        | false => exact writePrefix_getD _ _ i 0 hi

theorem computeNet_eq_chain (input : Nat → T) (buf : ComputeBuffer T)
    (L0 : Layer T) (rest : List (Layer T)) (hc : Chained L0.out_size rest) :
    (computeNet input buf (L0 :: rest)).1 = chainCompute (L0 :: rest) input := by
  cases rest with
  | nil => simp [computeNet, chainCompute]
  | cons L' rest' =>
    simp only [computeNet, chainCompute]
    refine computeGoNet_spec (L' :: rest') _ true (L0.compute input) ?_ ?_ (by simp)
    · rw [compute_length]
      exact hc
    · intro i hi
      exact writePrefix_getD _ _ i 0 hi

/-! ### `Network::train` lemmas -/

theorem trainNet_single (rate : T) (input target : Nat → T) (L : Layer T)
    (buffer : TrainBuffer T) :
    (trainNet rate input target [L] buffer).1 =
      [(L.train rate input (fun i => (L.compute input).getD i 0) target).1] := by
  simp only [trainNet, forwardGo, List.length_nil]
  have h0 : 0 < (growTo (default : ComputeBuffer T) buffer (0 + 1)).length := by
    rw [growTo_length]
    omega
  rw [getD_set_self _ _ _ _ h0]
  rw [train_congr_output L rate input _ (fun i => (L.compute input).getD i 0) target
    fun o ho => ?_]
  have hlen : o < (L.compute input).length := by rw [compute_length]; exact ho
  exact writePrefix_getD _ _ o 0 hlen

theorem forwardGo_length :
    ∀ (layers : List (Layer T)) (k : Nat) (buf : TrainBuffer T),
      (forwardGo layers k buf).length = buf.length := by
  intro layers
  induction layers with
  | nil => intro k buf; simp [forwardGo]
  | cons L rest ih =>
    intro k buf
    rw [forwardGo, ih]
    simp

theorem trainNet_buf_length (rate : T) (input target : Nat → T)
    (layers : List (Layer T)) (buffer : TrainBuffer T) (hne : layers ≠ []) :
    (trainNet rate input target layers buffer).2.length =
      max buffer.length layers.length := by
  cases layers with
  | nil => exact absurd rfl hne
  | cons L0 rest =>
    cases rest with
    | nil =>
      simp only [trainNet, forwardGo]
      simp only [List.length_set]
      rw [growTo_length]
      simp
    | cons L1 rest' =>
      simp only [trainNet]
      simp only [List.length_set]
      rw [forwardGo_length, List.length_set, growTo_length]
      simp

theorem foldl_max_eq (l : List Nat) : ∀ (a : Nat), l.foldl max a = max a (l.foldl max 0) := by
  induction l with
  | nil => intro a; simp
  | cons x l ih =>
    intro a
    simp only [List.foldl]
    rw [ih (max a x), ih (max 0 x)]
    omega

theorem beginA_fold_length (reqs : List Nat) :
    ∀ (b : ComputeBuffer T),
      ((reqs.foldl ComputeBuffer.beginA b).A).length = max b.A.length (reqs.foldl max 0) := by
  induction reqs with
  | nil => intro b; simp
  | cons s rest ih =>
    intro b
    simp only [List.foldl]
    rw [ih (b.beginA s)]
    have hA : (b.beginA s).A.length = max b.A.length s := growTo_length 0 b.A s
    rw [hA, foldl_max_eq rest (max 0 s)]
    omega

theorem beginB_fold_length (reqs : List Nat) :
    ∀ (b : ComputeBuffer T),
      ((reqs.foldl ComputeBuffer.beginB b).B).length = max b.B.length (reqs.foldl max 0) := by
  induction reqs with
  | nil => intro b; simp
  | cons s rest ih =>
    intro b
    simp only [List.foldl]
    rw [ih (b.beginB s)]
    have hB : (b.beginB s).B.length = max b.B.length s := growTo_length 0 b.B s
    rw [hB, foldl_max_eq rest (max 0 s)]
    omega

/-- Uniqueness of the (unit, offset) decomposition of a flat store index:
offsets at most `I` within a stride of `1 + I`. -/
theorem stride_decomp_inj (I o r o' r' : Nat) (hr : r ≤ I) (hr' : r' ≤ I)
    (h : o * (1 + I) + r = o' * (1 + I) + r') : o = o' ∧ r = r' := by
  rcases Nat.lt_trichotomy o o' with hlt | heq | hgt
  · exfalso
    have h1 : (o + 1) * (1 + I) ≤ o' * (1 + I) := Nat.mul_le_mul_right _ (by omega)
    have h2 : (o + 1) * (1 + I) = o * (1 + I) + (1 + I) := by ring
    set M := o * (1 + I)
    set M' := o' * (1 + I)
    set M'' := (o + 1) * (1 + I)
    omega
  · subst heq
    set M := o * (1 + I)
    omega
  · exfalso
    have h1 : (o' + 1) * (1 + I) ≤ o * (1 + I) := Nat.mul_le_mul_right _ (by omega)
    have h2 : (o' + 1) * (1 + I) = o' * (1 + I) + (1 + I) := by ring
    set M := o * (1 + I)
    set M' := o' * (1 + I)
    set M'' := (o' + 1) * (1 + I)
    omega

/-! ### The claims -/

/-- Claim C3: `Layer::compute` writes, for each output unit `o` in order,
`output[o] = transfer(bias(o) + Σ_i input[i]*weight(i,o))`; the output has
exactly `out_size` entries.  (The C++ method is `const`: in this embedding
it returns the written range and by construction cannot modify the layer
or the input.) -/
theorem claim_c3_layer_compute (L : Layer T) (input : Nat → T) :
    (L.compute input).length = L.out_size ∧
    ∀ o, o < L.out_size →
      (L.compute input).getD o 0 =
        L.tf.transfer (L.biasVal o +
          ∑ i in Finset.range L.in_size, input i * L.weightVal i o) :=
  ⟨compute_length L input, fun o ho => compute_getD L input o ho⟩

/-- Witness for C3 at a concrete 2-input, 1-output Heaviside layer. -/
theorem claim_c3_witness :
    ((⟨2, 1, Heaviside ℤ, [1, 2, 3]⟩ : Layer ℤ).compute (fun _ => 1)).length = 1 ∧
    ((⟨2, 1, Heaviside ℤ, [1, 2, 3]⟩ : Layer ℤ).compute (fun _ => 1)).getD 0 0 =
      (Heaviside ℤ).transfer ((⟨2, 1, Heaviside ℤ, [1, 2, 3]⟩ : Layer ℤ).biasVal 0 +
        ∑ i in Finset.range 2,
          (1 : ℤ) * (⟨2, 1, Heaviside ℤ, [1, 2, 3]⟩ : Layer ℤ).weightVal i 0) :=
  ⟨(claim_c3_layer_compute (⟨2, 1, Heaviside ℤ, [1, 2, 3]⟩ : Layer ℤ) (fun _ => 1)).1,
    (claim_c3_layer_compute (⟨2, 1, Heaviside ℤ, [1, 2, 3]⟩ : Layer ℤ) (fun _ => 1)).2 0
      (by decide)⟩

/-- Claim C9: the Heaviside preset's transfer returns `1` for every
`x ≥ 0` (including `0`) and `0` for every `x < 0`. -/
theorem claim_c9_heaviside {S : Type} [Zero S] [One S] [LinearOrder S] (x : S) :
    (0 ≤ x → (Heaviside S).transfer x = 1) ∧ (x < 0 → (Heaviside S).transfer x = 0) := by
  constructor
  · intro h
    simp [Heaviside, h]
  · intro h
    simp [Heaviside, not_le.mpr h]

/-- Witness for C9 at `x = 0` and `x = -1` over `ℤ`. -/
theorem claim_c9_witness :
    (Heaviside ℤ).transfer 0 = 1 ∧ (Heaviside ℤ).transfer (-1) = 0 :=
  ⟨(claim_c9_heaviside (0 : ℤ)).1 (by decide), (claim_c9_heaviside (-1 : ℤ)).2 (by decide)⟩

/-- Claim C4: in each `Layer::train` call, `back` is seeded with a copy of
the input before the per-output-unit loop (visible as the leading
`input i` term of the final back value), and for each output unit `o`,
`delta = derivative(output[o])*(output[o]-target[o])` (`deltaVal`),
`bias(o)` is decreased by `rate*delta`, and each `weight(i,o)` is
decreased by `rate*delta*input[i]`. -/
theorem claim_c4_layer_train (L : Layer T) (rate : T) (input output target : Nat → T)
    (hw : L.w.length = (1 + L.in_size) * L.out_size) :
    (∀ o, o < L.out_size →
      ((L.train rate input output target).1).biasVal o =
        L.biasVal o - rate * deltaVal L.tf output target o) ∧
    (∀ o i, o < L.out_size → i < L.in_size →
      ((L.train rate input output target).1).weightVal i o =
        L.weightVal i o - rate * deltaVal L.tf output target o * input i) ∧
    ((L.train rate input output target).2).length = L.in_size ∧
    (∀ i, i < L.in_size →
      ((L.train rate input output target).2).getD i 0 =
        input i - ∑ o in Finset.range L.out_size,
          deltaVal L.tf output target o *
            (L.weightVal i o - rate * deltaVal L.tf output target o * input i)) :=
  ⟨fun o ho => train_bias L rate input output target hw o ho,
    fun o i ho hi => train_weight L rate input output target hw o i ho hi,
    train_back_length L rate input output target,
    fun i hi => train_back L rate input output target hw i hi⟩

/-- Witness for C4 at a concrete 1-input, 1-output Heaviside layer. -/
theorem claim_c4_witness :
    (((⟨1, 1, Heaviside ℤ, [0, 1]⟩ : Layer ℤ).train 1 (fun _ => 1) (fun _ => 1)
        (fun _ => 0)).1).biasVal 0 =
      (⟨1, 1, Heaviside ℤ, [0, 1]⟩ : Layer ℤ).biasVal 0 -
        1 * deltaVal (Heaviside ℤ) (fun _ => 1) (fun _ => 0) 0 ∧
    (((⟨1, 1, Heaviside ℤ, [0, 1]⟩ : Layer ℤ).train 1 (fun _ => 1) (fun _ => 1)
        (fun _ => 0)).1).weightVal 0 0 =
      (⟨1, 1, Heaviside ℤ, [0, 1]⟩ : Layer ℤ).weightVal 0 0 -
        1 * deltaVal (Heaviside ℤ) (fun _ => 1) (fun _ => 0) 0 * 1 ∧
    (((⟨1, 1, Heaviside ℤ, [0, 1]⟩ : Layer ℤ).train 1 (fun _ => 1) (fun _ => 1)
        (fun _ => 0)).2).length = 1 := by
  have h := claim_c4_layer_train (⟨1, 1, Heaviside ℤ, [0, 1]⟩ : Layer ℤ) 1
    (fun _ => 1) (fun _ => 1) (fun _ => 0) (by decide)
  exact ⟨h.1 0 (by decide), h.2.1 0 0 (by decide) (by decide), h.2.2.1⟩

/-- Counterexample to C1 as stated: for the 1×1 Heaviside layer with
bias `0` and weight `1`, rate `1`, input `1`, output `1`, target `0`
(so `delta = 1`), the written back value is `1`, but the claimed formula
`input[0] - delta·w_pre(0,0) = 1 - 1·1` is `0`: the accumulation does
not use the weight value read before the pair's own update. -/
theorem claim_c1_counterexample :
    ((⟨1, 1, Heaviside ℤ, [0, 1]⟩ : Layer ℤ).train 1 (fun _ => 1) (fun _ => 1)
        (fun _ => 0)).2.getD 0 0 ≠
      (1 : ℤ) - deltaVal (Heaviside ℤ) (fun _ => 1) (fun _ => 0) 0 *
        (⟨1, 1, Heaviside ℤ, [0, 1]⟩ : Layer ℤ).weightVal 0 0 := by
  decide

/-- Claim C1 (amended): the back accumulation for pair `(i,o)` subtracts
`delta_o` times the weight value read **after** that pair's own update in
the same step (line 117 of FFNN.inl updates `*w_iter` before line 118
reads it), so `back[i] = input[i] - Σ_o delta_o · w_post(i,o)`, where
`w_post(i,o)` is the trained layer's weight. -/
theorem claim_c1_amended (L : Layer T) (rate : T) (input output target : Nat → T)
    (hw : L.w.length = (1 + L.in_size) * L.out_size) :
    ∀ i, i < L.in_size →
      ((L.train rate input output target).2).getD i 0 =
        input i - ∑ o in Finset.range L.out_size,
          deltaVal L.tf output target o *
            ((L.train rate input output target).1).weightVal i o := by
  intro i hi
  rw [train_back L rate input output target hw i hi]
  congr 1
  refine Finset.sum_congr rfl fun o ho => ?_
  rw [train_weight L rate input output target hw o i (Finset.mem_range.mp ho) hi]

/-- Witness for the amended C1 at the counterexample's layer. -/
theorem claim_c1_witness :
    ((⟨1, 1, Heaviside ℤ, [0, 1]⟩ : Layer ℤ).train 1 (fun _ => 1) (fun _ => 1)
        (fun _ => 0)).2.getD 0 0 =
      (1 : ℤ) - ∑ o in Finset.range 1,
        deltaVal (Heaviside ℤ) (fun _ => 1) (fun _ => 0) o *
          (((⟨1, 1, Heaviside ℤ, [0, 1]⟩ : Layer ℤ).train 1 (fun _ => 1) (fun _ => 1)
              (fun _ => 0)).1).weightVal 0 o :=
  claim_c1_amended (⟨1, 1, Heaviside ℤ, [0, 1]⟩ : Layer ℤ) 1 (fun _ => 1) (fun _ => 1)
    (fun _ => 0) (by decide) 0 (by decide)

/-- Claim C5: the weight store of a constructed layer has exactly
`(I+1)*O` entries, training preserves the store's length, and the flat
indices addressed by `bias(o)` (`o*(1+I)`) and `weight(i,o)`
(`o*(1+I)+i+1`) are in range and pairwise distinct for `i < I`, `o < O`;
the accessors read exactly those indices.  (`Layer::compute` is `const`
and cannot touch the store.) -/
theorem claim_c5_shape (I O : Nat) (tf : TransferFunction T) :
    ((Layer.make I O tf : Layer T).w.length = (I + 1) * O) ∧
    (∀ (L : Layer T) (rate : T) (input output target : Nat → T),
      ((L.train rate input output target).1).w.length = L.w.length) ∧
    (∀ i o, i < I → o < O → biasIdx I o < (I + 1) * O ∧ weightIdx I i o < (I + 1) * O) ∧
    (∀ i o o', i < I → biasIdx I o' ≠ weightIdx I i o) ∧
    (∀ o o', biasIdx I o = biasIdx I o' → o = o') ∧
    (∀ i o i' o', i < I → i' < I → weightIdx I i o = weightIdx I i' o' → i = i' ∧ o = o') ∧
    (∀ (L : Layer T) (o : Nat), L.biasVal o = L.w.getD (biasIdx L.in_size o) 0) ∧
    (∀ (L : Layer T) (i o : Nat), L.weightVal i o = L.w.getD (weightIdx L.in_size i o) 0) := by
  refine ⟨by simp [Layer.make], fun L rate input output target => train_w_length L rate input output target, ?_, ?_, ?_, ?_, fun L o => rfl, fun L i o => rfl⟩
  · intro i o hi ho
    have h1 := idx_lt_of_lt I O 0 o (by omega) ho
    have h2 := idx_lt_of_lt I O (i + 1) o (by omega) ho
    have he : (1 + I) * O = (I + 1) * O := by ring
    rw [he] at h1 h2
    unfold biasIdx weightIdx
    omega
  · intro i o o' hi h
    have := stride_decomp_inj I o' 0 o (i + 1) (by omega) (by omega) (by
      unfold biasIdx weightIdx at h
      omega)
    omega
  · intro o o' h
    exact (stride_decomp_inj I o 0 o' 0 (by omega) (by omega) (by
      unfold biasIdx at h
      omega)).1
  · intro i o i' o' hi hi' h
    have := stride_decomp_inj I o (i + 1) o' (i' + 1) (by omega) (by omega) (by
      unfold weightIdx at h
      omega)
    omega

/-- Witness for C5 at `I = 1`, `O = 2` over `ℤ`. -/
theorem claim_c5_witness :
    ((Layer.make 1 2 (Heaviside ℤ) : Layer ℤ).w.length = 4) ∧
    (((⟨1, 1, Heaviside ℤ, [0, 1]⟩ : Layer ℤ).train 1 (fun _ => 1) (fun _ => 1)
        (fun _ => 0)).1).w.length = 2 ∧
    (biasIdx 1 1 < 4 ∧ weightIdx 1 0 1 < 4) ∧
    biasIdx 1 1 ≠ weightIdx 1 0 0 := by
  have h := claim_c5_shape 1 2 (Heaviside ℤ)
  refine ⟨h.1, ?_, h.2.2.1 0 1 (by decide) (by decide), h.2.2.2.1 0 0 1 (by decide)⟩
  rw [h.2.1 (⟨1, 1, Heaviside ℤ, [0, 1]⟩ : Layer ℤ) 1 (fun _ => 1) (fun _ => 1) (fun _ => 0)]
  decide

/-- Claim C2 is violated by the code: the backward loop of `Network::train`
is `while (--l_iter != l_iter)` (FFNN.inl line 206), which compares the
decremented iterator with itself and so never iterates; only the decrement
in the condition happens, once.  On the 3-layer network below
(`Network(1, {1,1,1})`, Heaviside, all weights zero, rate 1, input `5`,
target `0`), every layer outputs `1` in the forward pass; the code then
trains layer 2 correctly (weights become `[-1, -1]`), trains layer 1 with
the **external input** `5` instead of layer 0's stored output `1` (its
weight becomes `5` where the claimed traversal yields `1`), and never
trains layer 0 (its store stays `[0, 0]`). -/
theorem claim_c2_backward_pass_bug :
    ((Network.make 1 [1, 1, 1] (Heaviside ℤ) : Network ℤ).trainBuf 1 (fun _ => 5)
        (fun _ => 0) []).1.l.map Layer.w = [[0, 0], [1, 5], [-1, -1]] := by
  decide

/-- Claim C6: `Network::compute` equals the sequential composition of the
layers' `Layer::compute` through explicit intermediate buffers
(`chainCompute`), for any caller buffer; the two-layer case of the spec is
an instance. -/
theorem claim_c6_compute_chain (net : Network T) (input : Nat → T)
    (buf : ComputeBuffer T) (L0 : Layer T) (rest : List (Layer T))
    (hl : net.l = L0 :: rest) (hc : Chained L0.out_size rest) :
    (net.computeBuf input buf).1 = chainCompute net.l input := by
  unfold Network.computeBuf
  rw [hl]
  exact computeNet_eq_chain input buf L0 rest hc

/-- Witness for C6 on a concrete two-layer network with a dirty buffer. -/
theorem claim_c6_witness :
    ((Network.make 2 [2, 1] (Heaviside ℤ) : Network ℤ).computeBuf (fun _ => 1)
        ⟨[5, 5], [7]⟩).1 =
      chainCompute (Network.make 2 [2, 1] (Heaviside ℤ) : Network ℤ).l (fun _ => 1) :=
  claim_c6_compute_chain _ _ _ _ _ rfl (mkLayers_chained (Heaviside ℤ) [1] 2)

/-- Claim C7: `beginA`/`beginB` grow the container to at least the request
and never shrink it — after any sequence of calls the length is the
maximum of the initial length and all requested sizes, so the returned
cursor is always valid for the requested number of writes; likewise
`Network::train` grows a reused `TrainBuffer` to at least `layers()`
entries and never shrinks it. -/
theorem claim_c7_buffer_growth :
    (∀ (b : ComputeBuffer T) (s : Nat),
      (b.beginA s).A.length = max b.A.length s ∧
      (b.beginB s).B.length = max b.B.length s) ∧
    (∀ (b : ComputeBuffer T) (reqs : List Nat),
      ((reqs.foldl ComputeBuffer.beginA b).A).length = max b.A.length (reqs.foldl max 0) ∧
      ((reqs.foldl ComputeBuffer.beginB b).B).length = max b.B.length (reqs.foldl max 0)) ∧
    (∀ (net : Network T) (rate : T) (input target : Nat → T) (buffer : TrainBuffer T),
      net.l ≠ [] →
      ((net.trainBuf rate input target buffer).2).length =
        max buffer.length net.l.length) := by
  refine ⟨fun b s => ⟨growTo_length 0 b.A s, growTo_length 0 b.B s⟩,
    fun b reqs => ⟨beginA_fold_length reqs b, beginB_fold_length reqs b⟩,
    fun net rate input target buffer hne => ?_⟩
  show (trainNet rate input target net.l buffer).2.length = _
  exact trainNet_buf_length rate input target net.l buffer hne

/-- Witness for C7: a non-monotonic request sequence and a single-layer
train call on an empty reused buffer. -/
theorem claim_c7_witness :
    ((⟨[1], []⟩ : ComputeBuffer ℤ).beginA 3).A.length = max 1 3 ∧
    ((([3, 2] : List Nat).foldl ComputeBuffer.beginA (⟨[], []⟩ : ComputeBuffer ℤ)).A).length =
      max 0 ([3, 2].foldl max 0) ∧
    (((Network.make 1 [1] (Heaviside ℤ) : Network ℤ).trainBuf 1 (fun _ => 0) (fun _ => 0)
        []).2).length = max 0 1 :=
  ⟨((claim_c7_buffer_growth (T := ℤ)).1 ⟨[1], []⟩ 3).1,
    ((claim_c7_buffer_growth (T := ℤ)).2.1 ⟨[], []⟩ [3, 2]).1,
    (claim_c7_buffer_growth (T := ℤ)).2.2 (Network.make 1 [1] (Heaviside ℤ)) 1
      (fun _ => 0) (fun _ => 0) [] (List.cons_ne_nil _ _)⟩

/-- Claim C8: a one-layer network's `compute` delegates directly to the
layer, and its `train` performs exactly the weight/bias updates of
computing the layer's output and then calling `Layer::train` with it. -/
theorem claim_c8_single_layer (net : Network T) (L : Layer T) (hl : net.l = [L])
    (rate : T) (input target : Nat → T) (buf : ComputeBuffer T) (tbuf : TrainBuffer T) :
    (net.computeBuf input buf).1 = L.compute input ∧
    (net.trainBuf rate input target tbuf).1.l =
      [(L.train rate input (fun i => (L.compute input).getD i 0) target).1] := by
  constructor
  · unfold Network.computeBuf
    rw [hl]
    rfl
  · show (trainNet rate input target net.l tbuf).1 = _
    rw [hl]
    exact trainNet_single rate input target L tbuf

/-- Witness for C8 on a concrete one-layer network. -/
theorem claim_c8_witness :
    ((Network.make 2 [1] (Heaviside ℤ) : Network ℤ).computeBuf (fun _ => 1) ⟨[9], [8]⟩).1 =
      (Layer.make 2 1 (Heaviside ℤ) : Layer ℤ).compute (fun _ => 1) ∧
    ((Network.make 2 [1] (Heaviside ℤ) : Network ℤ).trainBuf 1 (fun _ => 1) (fun _ => 0)
        []).1.l =
      [((Layer.make 2 1 (Heaviside ℤ) : Layer ℤ).train 1 (fun _ => 1)
          (fun i => ((Layer.make 2 1 (Heaviside ℤ) : Layer ℤ).compute (fun _ => 1)).getD i 0)
          (fun _ => 0)).1] :=
  claim_c8_single_layer _ _ rfl 1 _ _ _ _

/-- Claim C10: the output of `Network::compute` depends only on the
weights and the input, not on the supplied buffer's prior contents or
sizes, and the no-buffer overload (fresh temporary buffer) agrees with the
buffered one. -/
theorem claim_c10_buffer_independence (net : Network T) (input : Nat → T)
    (L0 : Layer T) (rest : List (Layer T)) (hl : net.l = L0 :: rest)
    (hc : Chained L0.out_size rest) (buf1 buf2 : ComputeBuffer T) :
    (net.computeBuf input buf1).1 = (net.computeBuf input buf2).1 ∧
    net.compute input = (net.computeBuf input buf1).1 := by
  unfold Network.compute Network.computeBuf
  rw [hl]
  constructor
  · rw [computeNet_eq_chain input buf1 L0 rest hc, computeNet_eq_chain input buf2 L0 rest hc]
  · rw [computeNet_eq_chain input _ L0 rest hc, computeNet_eq_chain input buf1 L0 rest hc]

/-- Witness for C10 on a concrete two-layer network with two different
dirty buffers. -/
theorem claim_c10_witness :
    ((Network.make 2 [2, 1] (Heaviside ℤ) : Network ℤ).computeBuf (fun _ => 1)
        ⟨[5, 5], [7]⟩).1 =
      ((Network.make 2 [2, 1] (Heaviside ℤ) : Network ℤ).computeBuf (fun _ => 1)
        ⟨[], [1, 2, 3]⟩).1 ∧
    (Network.make 2 [2, 1] (Heaviside ℤ) : Network ℤ).compute (fun _ => 1) =
      ((Network.make 2 [2, 1] (Heaviside ℤ) : Network ℤ).computeBuf (fun _ => 1)
        ⟨[5, 5], [7]⟩).1 :=
  claim_c10_buffer_independence _ _ _ _ rfl (mkLayers_chained (Heaviside ℤ) [1] 2) _ _

end FFNN
